import Mathlib

/-!
# Verification of the claude_report log-analysis pipeline

Shallow embedding of `claude_report.py`: the Entry Parser / Session Loader
(`_load_jsonl_file`, `load_sessions`), the Content Summarizer
(`_summarize_content`), the Tool-Use Summarizer (`_summarize_tool_use`), the
Aggregator (`analyze_sessions`) and the hourly-chart bucketing of
`generate_markdown_report`.

Modelling conventions:
* Python strings are Lean `String`s; slicing/`len` operate on code points in
  both.  Python's `\s`/`str.split()` whitespace and `\w` are modelled over
  their ASCII parts (all inputs exercised here are ASCII except the Japanese
  keyword tables, which contain no whitespace/word-boundary subtleties).
* UTC instants are modelled as `Int` seconds; `datetime.fromisoformat` is an
  external library call, so a raw `timestamp` JSON field is modelled as
  absent / present-but-unparseable / parsed-to-an-instant.  The local time
  zone used by `astimezone()` is modelled as a fixed offset `tz` in seconds.
* Python `dict`s read through `.get` with string keys become association
  lists; `defaultdict`/`Counter` become get-or-insert association lists that
  preserve insertion order, exactly like the source's accumulators.
* Float ratios in the hourly chart (`count / max_count` against literals
  0.8, 0.6, 0.4, 0.2) are modelled with exact rational arithmetic.
-/

/-- ASCII part of Python's `\s` class (str.split() / regex whitespace). -/
def isPySpace (c : Char) : Bool :=
  c = ' ' ∨ c = '\t' ∨ c = '\n' ∨ c = '\r' ∨ c = '\x0b' ∨ c = '\x0c'

/-- ASCII part of Python's `\w` class: letters, digits, underscore. -/
def isWordChar (c : Char) : Bool :=
  c.isAlphanum ∨ c = '_'

/-- Python `str.split()` (split on whitespace runs, dropping empty pieces). -/
def splitWsAux : List Char → List Char → List String
  | acc, [] => if acc.isEmpty then [] else [String.mk acc.reverse]
  | acc, c :: rest =>
    if isPySpace c then
      if acc.isEmpty then splitWsAux [] rest
      else String.mk acc.reverse :: splitWsAux [] rest
    else splitWsAux (c :: acc) rest

/-- Python `content.split()`. -/
def splitWsList (s : String) : List String :=
  splitWsAux [] s.toList

/-- Model of `re.sub(r'\s+', ' ', content).strip()`, which coincides with
`' '.join(content.split())`. -/
def normalizeWs (s : String) : String :=
  " ".intercalate (splitWsList s)

/-- Literal prefix test. -/
def litStarts : List Char → List Char → Bool
  | [], _ => true
  | _ :: _, [] => false
  | p :: ps, c :: cs => p = c ∧ litStarts ps cs

/-- Substring occurrence test over character lists. -/
def charsContain (needle : List Char) : List Char → Bool
  | [] => needle.isEmpty
  | c :: rest => litStarts needle (c :: rest) ∨ charsContain needle rest

/-- Python substring test `needle in hay`. -/
def strContains (hay needle : String) : Bool :=
  charsContain needle.toList hay.toList

/-- Python `str.lower()` over the ASCII range (`String.toLower` is not used
because its byte-position recursion does not reduce in the kernel). -/
def lowerStr (s : String) : String :=
  String.mk (s.toList.map Char.toLower)

/-- Python slice `s[:n]` (first `n` code points). -/
def strTake (s : String) (n : Nat) : String :=
  String.mk (s.toList.take n)

/-- Model of `os.path.basename`: the characters after the last slash. -/
def basenameChars (cs : List Char) : List Char :=
  cs.foldl (fun acc c => if c = '/' then [] else acc ++ [c]) []

/-- Model of `os.path.basename` on strings. -/
def strBasename (s : String) : String :=
  String.mk (basenameChars s.toList)

/-! ## The image-filename regex

`r'(?:^|\s|/)([^/\s]+\.(?:png|jpg|jpeg|gif|bmp|svg|webp))\b'` with
`re.IGNORECASE`, searched left to right; group 1 is returned. -/

/-- Characters allowed inside the `[^/\s]+` body of the image regex. -/
def nonDelim (c : Char) : Bool :=
  ¬ isPySpace c ∧ c ≠ '/'

/-- The extension alternatives of the image regex, in source order. -/
def imageExts : List String :=
  ["png", "jpg", "jpeg", "gif", "bmp", "svg", "webp"]

/-- Case-insensitive prefix match of a lowercase pattern against `cs`. -/
def lowerStarts : List Char → List Char → Bool
  | [], _ => true
  | _ :: _, [] => false
  | p :: ps, c :: cs => p = c.toLower ∧ lowerStarts ps cs

/-- The `\b` boundary check after an extension (previous char is a word
character, so the boundary holds iff the next char is absent or non-word). -/
def boundaryAfter : List Char → Bool
  | [] => true
  | c :: _ => ¬ isWordChar c

/-- Try the extension alternatives in order at `cs`; on success return the
matched extension length (the source alternation backtracks into the next
alternative when the following `\b` fails). -/
def tryExts : List String → List Char → Option Nat
  | [], _ => none
  | e :: es, cs =>
    if lowerStarts e.toList cs ∧ boundaryAfter (cs.drop e.length) then
      some e.length
    else tryExts es cs

/-- Attempt the group `[^/\s]+\.(?:ext)\b` at the start of `cs` with a body of
length `b`; greedy matching tries larger bodies first. -/
def imageGroupAux (cs : List Char) : Nat → Option (List Char)
  | 0 => none
  | b + 1 =>
    let attempt :=
      if (cs.take (b + 1)).all nonDelim ∧ cs.get? (b + 1) = some '.' then
        match tryExts imageExts (cs.drop (b + 2)) with
        | some l => some (cs.take (b + 1 + 1 + l))
        | none => none
      else none
    match attempt with
    | some g => some g
    | none => imageGroupAux cs b

/-- Attempt the capturing group of the image regex at the start of `cs`. -/
def imageGroupAt (cs : List Char) : Option (List Char) :=
  imageGroupAux cs cs.length

/-- Scan for the `(?:\s|/)`-anchored alternatives at successive positions. -/
def imageSearchAux : List Char → Option (List Char)
  | [] => none
  | c :: rest =>
    if isPySpace c ∨ c = '/' then
      match imageGroupAt rest with
      | some g => some g
      | none => imageSearchAux rest
    else imageSearchAux rest

/-- Model of `re.search` of the image-filename pattern: the `^` alternative at position
zero first, then the `\s|/`-anchored alternatives left to right. -/
def imageSearch (cs : List Char) : Option (List Char) :=
  match imageGroupAt cs with
  | some g => some g
  | none => imageSearchAux cs

/-! ## The absolute-file-path regex

`r'(?:^|\s)(/[\w\-./]+\.\w+)'`, searched left to right; group 1 is the path. -/

/-- Characters of the `[\w\-./]` class. -/
def isPathChar (c : Char) : Bool :=
  isWordChar c ∨ c = '-' ∨ c = '.' ∨ c = '/'

/-- Find the greedy body length `b ≥ 1` such that `run[b] = '.'` and a word
character follows, trying larger bodies first. -/
def filePathAux (run : List Char) : Nat → Option Nat
  | 0 => none
  | b + 1 =>
    if run.get? (b + 1) = some '.' ∧ (run.get? (b + 2)).any isWordChar then
      some (b + 1)
    else filePathAux run b

/-- Attempt the group `/[\w\-./]+\.\w+` at the start of `cs`. -/
def filePathAt (cs : List Char) : Option (List Char) :=
  match cs with
  | '/' :: rest =>
    let run := rest.takeWhile isPathChar
    match filePathAux run run.length with
    | some b =>
      let wlen := ((run.drop (b + 1)).takeWhile isWordChar).length
      some ('/' :: run.take (b + 1 + wlen))
    | none => none
  | _ => none

/-- Scan for the `\s`-anchored alternative at successive positions. -/
def filePathSearchAux : List Char → Option (List Char)
  | [] => none
  | c :: rest =>
    if isPySpace c then
      match filePathAt rest with
      | some g => some g
      | none => filePathSearchAux rest
    else filePathSearchAux rest

/-- Model of `re.search` of the file-path pattern. -/
def filePathSearch (cs : List Char) : Option (List Char) :=
  match filePathAt cs with
  | some g => some g
  | none => filePathSearchAux cs

/-! ## The URL regexes

`r'https?://[^\s]+'` finds the URL, then `r'https?://([^/]+)'` extracts the
host from it. -/

/-- Attempt `https?://` at the start of `cs`; returns the characters after the
scheme on success. -/
def schemeAt (cs : List Char) : Option (List Char) :=
  if litStarts ("https://".toList) cs then some (cs.drop 8)
  else if litStarts ("http://".toList) cs then some (cs.drop 7)
  else none

/-- Attempt `https?://[^\s]+` at the start of `cs`. -/
def urlAt (cs : List Char) : Option (List Char) :=
  match schemeAt cs with
  | some rest =>
    let tail := rest.takeWhile (fun c => ¬ isPySpace c)
    if tail.isEmpty then none
    else some (cs.take (cs.length - rest.length) ++ tail)
  | none => none

/-- Model of `re.search(r'https?://[^\s]+', ...)`: leftmost match. -/
def urlSearch : List Char → Option (List Char)
  | [] => none
  | c :: rest =>
    match urlAt (c :: rest) with
    | some u => some u
    | none => urlSearch rest

/-- Attempt `https?://([^/]+)` at the start of `cs`, returning group 1. -/
def domainAt (cs : List Char) : Option (List Char) :=
  match schemeAt cs with
  | some rest =>
    let host := rest.takeWhile (fun c => c ≠ '/')
    if host.isEmpty then none else some host
  | none => none

/-- Model of `re.search(r'https?://([^/]+)', ...)`: leftmost match, group 1. -/
def domainSearch : List Char → Option (List Char)
  | [] => none
  | c :: rest =>
    match domainAt (c :: rest) with
    | some d => some d
    | none => domainSearch rest

/-! ## The base64-blob test

`re.match(r'^[A-Za-z0-9+/\s]+={0,2}$', content)` (the content reaching this
test has been whitespace-normalized, so it contains no newlines and `$` is a
plain end anchor). -/

/-- Membership in the `[A-Za-z0-9+/\s]` class. -/
def isB64Char (c : Char) : Bool :=
  c.isAlphanum ∨ c = '+' ∨ c = '/' ∨ isPySpace c

/-- Whole-string match of `[A-Za-z0-9+/\s]+={0,2}`: strip trailing `=` signs
(at most two), then a non-empty body entirely in the class. -/
def isBase64Blob (s : String) : Bool :=
  let cs := s.toList
  let eqs := (cs.reverse.takeWhile (fun c => c = '=')).length
  let body := cs.take (cs.length - eqs)
  eqs ≤ 2 ∧ ¬ body.isEmpty ∧ body.all isB64Char

/-! ## The localized message table

Only the entries of `MESSAGES` that the core pipeline reads. -/

/-- The fields of the `MESSAGES` dictionaries consumed by the summarizers. -/
structure Messages where
  image_file : String
  image_data : String
  screenshot : String
  file_create : String
  file_edit : String
  file_read : String
  file_operation : String
  web_reference : String
  code_implementation : String
  error_fix : String
  code_related : String
  command_execution : String
deriving DecidableEq, Repr

/-- Model of `MESSAGES['en']`, restricted to the fields the core reads. -/
def enMessages : Messages where
  image_file := "Image file"
  image_data := "Image data processing"
  screenshot := "Screenshot analysis"
  file_create := "File creation"
  file_edit := "File edit"
  file_read := "File read"
  file_operation := "File operation"
  web_reference := "Web reference"
  code_implementation := "Code implementation request"
  error_fix := "Error fix/Debug"
  code_related := "Code related work"
  command_execution := "command execution"

/-- Model of `MESSAGES['ja']`, restricted to the fields the core reads. -/
def jaMessages : Messages where
  image_file := "画像ファイル"
  image_data := "画像データの処理"
  screenshot := "スクリーンショットの解析"
  file_create := "ファイル作成"
  file_edit := "ファイル編集"
  file_read := "ファイル確認"
  file_operation := "ファイル操作"
  web_reference := "Web参照"
  code_implementation := "コード実装依頼"
  error_fix := "エラー修正・デバッグ"
  code_related := "コード関連の作業"
  command_execution := "コマンド実行"

/-! ## The Content Summarizer (`_summarize_content`) -/

/-- The `code_keywords` list of `_summarize_content`, in source order. -/
def codeKeywords : List String :=
  ["実装", "コード", "プログラム", "関数", "クラス", "メソッド",
   "implement", "code", "function", "class", "method"]

/-- Rules 2-9 of `_summarize_content`, applied to the already
whitespace-normalized content `c`. -/
def summarizeCore (msgs : Messages) (c : String) : Option String :=
  match imageSearch c.toList with
  | some g => some (msgs.image_file ++ ": " ++ String.mk g)
  | none =>
  if strContains c "data:image" ∨ (1000 < c.length ∧ isBase64Blob c) then
    some msgs.image_data
  else if strContains (lowerStr c) "screenshot" ∨ strContains (lowerStr c) "screencapture" then
    some msgs.screenshot
  else
  match filePathSearch c.toList with
  | some g =>
    let filename := String.mk (basenameChars g)
    if strContains c "作成" ∨ strContains (lowerStr c) "create" ∨ strContains c "生成" then
      some (msgs.file_create ++ ": " ++ filename)
    else if strContains c "編集" ∨ strContains (lowerStr c) "edit" ∨ strContains c "修正" then
      some (msgs.file_edit ++ ": " ++ filename)
    else if strContains c "読み" ∨ strContains (lowerStr c) "read" ∨ strContains c "確認" then
      some (msgs.file_read ++ ": " ++ filename)
    else
      some (msgs.file_operation ++ ": " ++ filename)
  | none =>
  match urlSearch c.toList with
  | some url =>
    match domainSearch url with
    | some d => some (msgs.web_reference ++ ": " ++ String.mk d)
    | none => summarizeTail msgs c
  | none => summarizeTail msgs c
where
  /-- Rules 7-9: the code-keyword cascade and the length-based fallbacks. -/
  summarizeTail (msgs : Messages) (c : String) : Option String :=
    if codeKeywords.any (fun k => strContains (lowerStr c) k) then
      if strContains c "作成" ∨ strContains c "作って" ∨ strContains (lowerStr c) "create" then
        some msgs.code_implementation
      else if strContains c "エラー" ∨ strContains (lowerStr c) "error" ∨ strContains c "修正" then
        some msgs.error_fix
      else
        some msgs.code_related
    else if 100 < c.length then
      some (strTake (" ".intercalate ((splitWsList c).take 10)) 50 ++ "...")
    else if 50 < c.length then
      some (strTake c 50 ++ "...")
    else
      some c

/-- Model of `_summarize_content`: `None` on empty input, otherwise normalize
whitespace and run the rule cascade. -/
def summarizeContent (msgs : Messages) (content : String) : Option String :=
  if content = "" then none
  else summarizeCore msgs (normalizeWs content)

/-! ## The Tool-Use Summarizer (`_summarize_tool_use`) -/

/-- A tool-use `input` mapping, restricted to the string-valued parameters the
source reads through `.get(key, "")`. -/
abbrev ToolInput : Type := List (String × String)

/-- Model of `tool_input.get(key, "")`. -/
def inputGet (input : ToolInput) (key : String) : String :=
  match List.find? (fun kv => kv.1 = key) input with
  | some kv => kv.2
  | none => ""

/-- Model of `_summarize_tool_use`. -/
def summarizeToolUse (msgs : Messages) (toolName : String) (input : ToolInput) :
    Option String :=
  if toolName = "Read" then
    let fp := inputGet input "file_path"
    if fp ≠ "" then some ("[" ++ toolName ++ "] " ++ strBasename fp) else none
  else if toolName = "Write" ∨ toolName = "Edit" then
    let fp := inputGet input "file_path"
    if fp ≠ "" then some ("[" ++ toolName ++ "] " ++ strBasename fp) else none
  else if toolName = "Bash" then
    let cmd := inputGet input "command"
    if cmd ≠ "" then
      match splitWsList cmd with
      | c0 :: _ => some ("[" ++ toolName ++ "] " ++ c0 ++ " " ++ msgs.command_execution)
      | [] => none
    else none
  else if toolName = "WebSearch" then
    let q := inputGet input "query"
    if q ≠ "" then
      some ("[" ++ toolName ++ "] " ++ (if 30 < q.length then strTake q 30 ++ "..." else q))
    else none
  else if toolName = "WebFetch" then
    let u := inputGet input "url"
    if u ≠ "" then
      match domainSearch u.toList with
      | some d => some ("[" ++ toolName ++ "] " ++ String.mk d)
      | none => none
    else none
  else none

/-! ## The entry data model

A decoded JSONL record, restricted to the fields `analyze_sessions` and
`_load_jsonl_file` read.  Optional fields model key presence in the dict;
`.get` defaults from the source are resolved in the constructors. -/

/-- One element of a message's `content` list: a dict with `type == "text"`
(carrying `item.get("text", "")`), a dict with `type == "tool_use"` (carrying
`item.get("name", "unknown")` and `item.get("input", {})`), a bare string, or
any other dict, which contributes nothing. -/
inductive ContentItem where
  | textBlock (text : String)
  | toolUse (name : String) (input : ToolInput)
  | strItem (s : String)
  | otherItem
deriving DecidableEq

/-- A message's `content` value: either a single string or a list of content
items.  (A non-string non-list value would make the assistant branch of the
source raise on iteration; such payloads are outside the model.) -/
inductive MsgContent where
  | str (s : String)
  | items (l : List ContentItem)
deriving DecidableEq

/-- An entry's `message` value: a dict (whose `content` key may be absent) or
any non-dict value. -/
inductive Message where
  | dict (content? : Option MsgContent)
  | nondict
deriving DecidableEq

/-- The state of the raw `timestamp` field of a decoded JSON record:
absent, present but rejected by `datetime.fromisoformat`, or parsed to a UTC
instant (seconds). -/
inductive TsField where
  | absent
  | unparseable
  | parsed (t : Int)
deriving DecidableEq

/-- A JSON record as decoded from one line, before timestamp filtering. -/
structure RawEntry where
  tsField : TsField
  type? : Option String
  message? : Option Message
  summary? : Option String
deriving DecidableEq

/-- One line of a JSONL file: either malformed JSON (`json.loads` raises) or a
decoded record. -/
inductive RawLine where
  | malformed
  | entry (e : RawEntry)
deriving DecidableEq

/-- An entry as stored in a loaded session: the same payload with the
timestamp resolved (`none` = no parseable timestamp). -/
structure Entry where
  type? : Option String
  ts : Option Int
  message? : Option Message
  summary? : Option String
deriving DecidableEq

/-- Re-package a raw record with its resolved timestamp. -/
def entryOfRaw (e : RawEntry) (ts : Option Int) : Entry :=
  ⟨e.type?, ts, e.message?, e.summary?⟩

/-- A loaded session: project name, session id (file base name), and the
entry sequence in source order. -/
structure Session where
  project : String
  sessionId : String
  data : List Entry
deriving DecidableEq

/-! ## The Session Loader (`_load_jsonl_file` / `load_sessions`) -/

/-- The per-line body of `_load_jsonl_file`: malformed lines are discarded; a
parseable timestamp is range-filtered inclusively; an unparseable timestamp
raises inside the `try` and the `except` clause discards the line; an absent
timestamp passes through unfiltered. -/
def loadLine (lo hi : Int) : RawLine → Option Entry
  | .malformed => none
  | .entry e =>
    match e.tsField with
    | .parsed t => if lo ≤ t ∧ t ≤ hi then some (entryOfRaw e (some t)) else none
    | .unparseable => none
    | .absent => some (entryOfRaw e none)

/-- Model of `_load_jsonl_file`: fold `loadLine` over the lines. -/
def loadJsonlFile (lo hi : Int) (lines : List RawLine) : List Entry :=
  lines.filterMap (loadLine lo hi)

/-- A project directory's log file before loading (project name already
stripped of the deployment-path marker). -/
structure RawSession where
  project : String
  sessionId : String
  lines : List RawLine
deriving DecidableEq

/-- The project filter of `load_sessions`: skip when a non-empty filter is not
a case-insensitive substring of the project name. -/
def projectMatches (filt : Option String) (name : String) : Bool :=
  match filt with
  | none => true
  | some f => if f = "" then true else strContains (lowerStr name) (lowerStr f)

/-- Model of `load_sessions`: load each file, keeping only sessions whose filtered
entry sequence is non-empty. -/
def loadSessions (lo hi : Int) (filt : Option String) (raw : List RawSession) :
    List Session :=
  raw.filterMap fun rs =>
    if projectMatches filt rs.project then
      if (loadJsonlFile lo hi rs.lines).isEmpty then none
      else some ⟨rs.project, rs.sessionId, loadJsonlFile lo hi rs.lines⟩
    else none

/-! ## The Aggregator (`analyze_sessions`) -/

/-- The per-project accumulator of `analyze_sessions` (the defaultdict's
default value). -/
structure ProjectStats where
  sessions : List String
  messageCount : Nat
  toolUsage : List (String × Nat)
  firstActivity : Option Int
  lastActivity : Option Int
  topics : List String
deriving DecidableEq

/-- The defaultdict default: all-empty project stats. -/
def emptyStats : ProjectStats :=
  ⟨[], 0, [], none, none, []⟩

/-- The `AnalysisResult` aggregate of `analyze_sessions`.  Daily buckets are
local calendar days (as day numbers), hourly buckets local hours 0-23. -/
structure Analysis where
  totalSessions : Nat
  projects : List (String × ProjectStats)
  toolUsageOverall : List (String × Nat)
  dailyActivity : List (Int × Nat)
  hourlyActivity : List (Nat × Nat)
deriving DecidableEq

/-- Model of `Counter`/`defaultdict(int)` increment: update in place, or append a new
key at the end (dict insertion order). -/
def bump {α : Type} [DecidableEq α] : List (α × Nat) → α → List (α × Nat)
  | [], k => [(k, 1)]
  | (q, n) :: rest, k =>
    if q = k then (q, n + 1) :: rest else (q, n) :: bump rest k

/-- Counter lookup with default 0. -/
def lookupCount {α : Type} [DecidableEq α] : List (α × Nat) → α → Nat
  | [], _ => 0
  | (q, n) :: rest, k => if q = k then n else lookupCount rest k

/-- Model of `analysis["projects"][p]` via defaultdict semantics: mutate the stats of
`p` in place, inserting the default first if `p` is new. -/
def updateProj : List (String × ProjectStats) → String →
    (ProjectStats → ProjectStats) → List (String × ProjectStats)
  | [], p, f => [(p, f emptyStats)]
  | (q, s) :: rest, p, f =>
    if q = p then (q, f s) :: rest else (q, s) :: updateProj rest p f

/-- Read a project's stats (the defaultdict default for absent keys). -/
def getStats : List (String × ProjectStats) → String → ProjectStats
  | [], _ => emptyStats
  | (q, s) :: rest, p => if q = p then s else getStats rest p

/-- The user-branch content extraction: a plain string is taken as is; a list
concatenates the text of `"text"`-typed dicts and bare strings with spaces;
anything else yields the empty string. -/
def itemText : ContentItem → Option String
  | .textBlock t => some t
  | .strItem s => some s
  | _ => none

/-- Content of a `user` entry's message. -/
def userContent : Message → String
  | .nondict => ""
  | .dict none => ""
  | .dict (some (.str s)) => s
  | .dict (some (.items l)) => " ".intercalate (l.filterMap itemText)

/-- The items the assistant branch iterates over: requires a dict message with
a `content` key; iterating a string content visits only characters, which are
never dicts, so it contributes nothing. -/
def assistantItems : Message → List ContentItem
  | .dict (some (.items l)) => l
  | _ => []

/-- The running-minimum narrowing step of the first-activity bound
(`if timestamp_utc < first: first = timestamp_utc`, seeding on `None`). -/
def optMin (o : Option Int) (t : Int) : Option Int :=
  some (match o with
    | none => t
    | some f => if t < f then t else f)

/-- The running-maximum narrowing step of the last-activity bound
(`if timestamp_utc > last: last = timestamp_utc`, seeding on `None`). -/
def optMax (o : Option Int) (t : Int) : Option Int :=
  some (match o with
    | none => t
    | some l => if l < t then t else l)

/-- The timestamp block of the entry loop: narrow the project's first/last
activity (UTC) and bump the local daily/hourly histograms.  `tz` is the local
UTC offset in seconds used by `astimezone()`. -/
def tsUpdate (tz : Int) (proj : String) (a : Analysis) : Option Int → Analysis
  | none => a
  | some t =>
    let localT := t + tz
    { a with
      projects := updateProj a.projects proj fun st =>
        { st with
          firstActivity := optMin st.firstActivity t
          lastActivity := optMax st.lastActivity t }
      dailyActivity := bump a.dailyActivity (Int.fdiv localT 86400)
      hourlyActivity := bump a.hourlyActivity ((Int.fmod localT 86400).toNat / 3600) }

/-- The `user` branch: count the message and, when content is non-empty and
fewer than 3 topics are recorded, append the Content Summarizer's result. -/
def userUpdate (msgs : Messages) (proj : String) (a : Analysis) (m : Message) :
    Analysis :=
  let a := { a with
    projects := updateProj a.projects proj fun st =>
      { st with messageCount := st.messageCount + 1 } }
  let content := userContent m
  if content ≠ "" ∧ (getStats a.projects proj).topics.length < 3 then
    match summarizeContent msgs content with
    | some topic =>
      { a with projects := updateProj a.projects proj fun st =>
          { st with topics := st.topics ++ [topic] } }
    | none => a
  else a

/-- The per-project effect of one `tool_use` block: bump the tool's counter
and append the tool summary when fewer than 5 topics exist. -/
def toolStatsUpdate (msgs : Messages) (name : String) (input : ToolInput)
    (st : ProjectStats) : ProjectStats :=
  if st.topics.length < 5 then
    match summarizeToolUse msgs name input with
    | some ts => { st with toolUsage := bump st.toolUsage name
                           topics := st.topics ++ [ts] }
    | none => { st with toolUsage := bump st.toolUsage name }
  else { st with toolUsage := bump st.toolUsage name }

/-- One `tool_use` content item of the `assistant` branch: bump both tool
histograms, and append the tool summary when fewer than 5 topics exist. -/
def processToolItem (msgs : Messages) (proj : String) (a : Analysis) :
    ContentItem → Analysis
  | .toolUse name input =>
    { a with
      toolUsageOverall := bump a.toolUsageOverall name
      projects := updateProj a.projects proj (toolStatsUpdate msgs name input) }
  | _ => a

/-- The `summary` branch: append the summary string verbatim when the topic
list is still empty. -/
def summaryUpdate (proj : String) (a : Analysis) (s : String) : Analysis :=
  { a with projects := updateProj a.projects proj fun st =>
      if st.topics.length = 0 then { st with topics := st.topics ++ [s] } else st }

/-- The body of the entry loop of `analyze_sessions`. -/
def processEntry (msgs : Messages) (tz : Int) (proj : String) (a : Analysis)
    (e : Entry) : Analysis :=
  let a := tsUpdate tz proj a e.ts
  match e.type? with
  | some ty =>
    if ty = "user" then
      match e.message? with
      | some m => userUpdate msgs proj a m
      | none => a
    else if ty = "assistant" then
      match e.message? with
      | some m => (assistantItems m).foldl (processToolItem msgs proj) a
      | none => a
    else if ty = "summary" then
      match e.summary? with
      | some s => summaryUpdate proj a s
      | none => a
    else a
  | none => a

/-- The body of the session loop of `analyze_sessions`: record the session id
under its project, then fold the entry loop. -/
def processSession (msgs : Messages) (tz : Int) (a : Analysis) (s : Session) :
    Analysis :=
  let a := { a with
    projects := updateProj a.projects s.project fun st =>
      { st with sessions := st.sessions ++ [s.sessionId] } }
  s.data.foldl (processEntry msgs tz s.project) a

/-- Model of `analyze_sessions`: a single pass over the loaded sessions. -/
def analyzeSessions (msgs : Messages) (tz : Int) (sessions : List Session) :
    Analysis :=
  sessions.foldl (processSession msgs tz)
    ⟨sessions.length, [], [], [], []⟩

/-- Model of `analyze_sessions` as a method on the generator state: the source reads
`self.sessions` and the message table but assigns to neither and mutates no
loaded session structure (it only fills the freshly created `analysis` dict),
so its effect on the generator state is the identity. -/
structure GenState where
  sessions : List Session
  msgs : Messages
deriving DecidableEq

/-- The method call `generator.analyze_sessions()`: returns the (unchanged)
state together with the analysis of the stored sessions. -/
def analyzeSessionsM (tz : Int) (g : GenState) : GenState × Analysis :=
  (g, analyzeSessions g.msgs tz g.sessions)

/-! ## Hourly-chart bucketing (`generate_markdown_report`) -/

/-- Model of `max(hourly_activity.values())` with fallback 1 for an empty histogram. -/
def maxHourly (h : List (Nat × Nat)) : Nat :=
  if h.isEmpty then 1 else (h.map Prod.snd).foldl Nat.max 0

/-- The 0-5 intensity level of one hour: 0 for count 0, otherwise inclusive
thresholds of `count / max_count` against 0.8 / 0.6 / 0.4 / 0.2 (the float
division and literals are modelled as exact rationals). -/
def hourLevel (count maxCount : Nat) : Nat :=
  if count = 0 then 0
  else if (8 : ℚ) / 10 ≤ (count : ℚ) / (maxCount : ℚ) then 5
  else if (6 : ℚ) / 10 ≤ (count : ℚ) / (maxCount : ℚ) then 4
  else if (4 : ℚ) / 10 ≤ (count : ℚ) / (maxCount : ℚ) then 3
  else if (2 : ℚ) / 10 ≤ (count : ℚ) / (maxCount : ℚ) then 2
  else 1

/-- The level rendered for a given hour of the chart:
`hourly_activity.get(hour, 0)` against the histogram's maximum. -/
def chartLevel (h : List (Nat × Nat)) (hour : Nat) : Nat :=
  hourLevel (lookupCount h hour) (maxHourly h)

/-! ## Derived notions used to state the claims -/

/-- The parsed timestamps of a session's entries, in source order. -/
def sessionTimestamps (s : Session) : List Int :=
  s.data.filterMap Entry.ts

/-- All parsed timestamps belonging to one project, in processing order. -/
def projectTimestamps (p : String) : List Session → List Int
  | [] => []
  | s :: rest =>
    (if s.project = p then sessionTimestamps s else []) ++ projectTimestamps p rest

/-- The sum over all projects of one tool's per-project usage count. -/
def sumProjCounts (ps : List (String × ProjectStats)) (name : String) : Nat :=
  (ps.map fun pr => lookupCount pr.2.toolUsage name).sum

/-! ## Concrete inputs used in counterexamples and witnesses -/

/-- C1 scenario: a summary line followed by a timestamped user line asking to
read `/tmp/app.log` (the timestamp `1704448800` is 2024-01-05T10:00:00Z). -/
def c1Lines : List RawLine :=
  [.entry ⟨.absent, some "summary", none, some "Fix login bug"⟩,
   .entry ⟨.parsed 1704448800, some "user",
     some (.dict (some (.str "please read /tmp/app.log for errors"))), none⟩]

/-- The loaded sessions of the C1 scenario (range 2024-01-01 to 2024-01-12,
covering the user entry's timestamp). -/
def c1Sessions : List Session :=
  loadSessions 1704067200 1705017600 none [⟨"myproj", "s1", c1Lines⟩]

/-- C2 scenario: a syntactically valid record whose timestamp field does not
parse. -/
def c2Raw : RawEntry :=
  ⟨.unparseable, some "user", some (.dict (some (.str "hello"))), none⟩

/-- C3 scenario: a session whose only entry is an assistant message with one
`tool_use` block (no user messages, no summary entries anywhere). -/
def c3Session : Session :=
  ⟨"p3", "s3", [⟨some "assistant", none,
    some (.dict (some (.items [.toolUse "Read" [("file_path", "/a/b.txt")]]))), none⟩]⟩

/-- A project map holding a full (5-element) topic list, used to witness the
once-5-nothing-is-appended clause. -/
def c3FullAnalysis : Analysis :=
  ⟨1, [("p", ⟨["s"], 0, [], none, none, ["t1", "t2", "t3", "t4", "t5"]⟩)], [], [], []⟩

/-- A user entry used to exercise the full-topic-list step. -/
def c3ProbeEntry : Entry :=
  ⟨some "user", none, some (.dict (some (.str "implement a parser"))), none⟩

/-- C5/C6 witness: one project file whose single line carries timestamp 10. -/
def c5Raw : List RawSession :=
  [⟨"proj", "sess", [.entry ⟨.parsed 10, some "user",
    some (.dict (some (.str "hi"))), none⟩]⟩]

/-- C8 scenario: an hourly histogram with maximum count 10 in which hour 3 has
count 6. -/
def c8Hist : List (Nat × Nat) :=
  [(5, 10), (3, 6), (7, 2)]

/-! # Infrastructure lemmas -/

/-- Reading after a defaultdict update: the updated key sees the transformer,
other keys are untouched. -/
theorem getStats_updateProj (ps : List (String × ProjectStats)) (p : String)
    (f : ProjectStats → ProjectStats) (q : String) :
    getStats (updateProj ps p f) q =
      if q = p then f (getStats ps p) else getStats ps q := by
  induction ps with
  | nil =>
    by_cases h : q = p
    · subst h; simp [updateProj, getStats]
    · simp [updateProj, getStats, h, Ne.symm h]
  | cons hd tl ih =>
    obtain ⟨r, s⟩ := hd
    simp only [updateProj, getStats]
    by_cases hrp : r = p <;> by_cases hq : r = q <;>
      simp_all [updateProj, getStats] <;>
      rw [if_neg (by intro h; exact hq h.symm)]

/-- Invariants survive left folds. -/
theorem foldlInv {α β : Type} {P : β → Prop} (f : β → α → β)
    (h : ∀ b x, P b → P (f b x)) : ∀ (l : List α) (b : β), P b → P (l.foldl f b)
  | [], _, hb => hb
  | x :: l, b, hb => foldlInv f h l (f b x) (h b x hb)

/-! ## Field-preservation lemmas for the per-entry updates -/

theorem toolStats_first (msgs : Messages) (name : String) (input : ToolInput)
    (st : ProjectStats) :
    (toolStatsUpdate msgs name input st).firstActivity = st.firstActivity := by
  unfold toolStatsUpdate
  split
  · split <;> rfl
  · rfl

theorem toolStats_last (msgs : Messages) (name : String) (input : ToolInput)
    (st : ProjectStats) :
    (toolStatsUpdate msgs name input st).lastActivity = st.lastActivity := by
  unfold toolStatsUpdate
  split
  · split <;> rfl
  · rfl

theorem toolStats_toolUsage (msgs : Messages) (name : String) (input : ToolInput)
    (st : ProjectStats) :
    (toolStatsUpdate msgs name input st).toolUsage = bump st.toolUsage name := by
  unfold toolStatsUpdate
  split
  · split <;> rfl
  · rfl

theorem toolStats_topics_le (msgs : Messages) (name : String) (input : ToolInput)
    (st : ProjectStats) (h : st.topics.length ≤ 5) :
    (toolStatsUpdate msgs name input st).topics.length ≤ 5 := by
  unfold toolStatsUpdate
  split
  case isTrue hlt =>
    split
    · simp only [List.length_append, List.length_cons, List.length_nil]
      omega
    · exact h
  case isFalse _ => exact h

theorem toolStats_topics_frozen (msgs : Messages) (name : String)
    (input : ToolInput) (st : ProjectStats) (h : st.topics.length = 5) :
    (toolStatsUpdate msgs name input st).topics = st.topics := by
  unfold toolStatsUpdate
  rw [if_neg (by omega)]

/-- A field untouched by the update transformer is untouched in every slot of
the project map. -/
theorem updateProj_preserves {α : Type} (A : ProjectStats → α)
    {ps : List (String × ProjectStats)} {p : String}
    {f : ProjectStats → ProjectStats} (q : String)
    (hf : ∀ st, A (f st) = A st) :
    A (getStats (updateProj ps p f) q) = A (getStats ps q) := by
  rw [getStats_updateProj]
  split
  · rename_i h; subst h; rw [hf]
  · rfl

theorem userUpdate_first (msgs : Messages) (proj : String) (a : Analysis)
    (m : Message) (q : String) :
    (getStats (userUpdate msgs proj a m).projects q).firstActivity =
      (getStats a.projects q).firstActivity := by
  simp only [userUpdate]
  split
  · split
    · dsimp only
      refine Eq.trans (updateProj_preserves ProjectStats.firstActivity q ?_)
        (updateProj_preserves ProjectStats.firstActivity q ?_) <;> intro st <;> rfl
    · dsimp only
      refine updateProj_preserves ProjectStats.firstActivity q ?_
      intro st; rfl
  · dsimp only
    refine updateProj_preserves ProjectStats.firstActivity q ?_
    intro st; rfl

theorem userUpdate_last (msgs : Messages) (proj : String) (a : Analysis)
    (m : Message) (q : String) :
    (getStats (userUpdate msgs proj a m).projects q).lastActivity =
      (getStats a.projects q).lastActivity := by
  simp only [userUpdate]
  split
  · split
    · dsimp only
      refine Eq.trans (updateProj_preserves ProjectStats.lastActivity q ?_)
        (updateProj_preserves ProjectStats.lastActivity q ?_) <;> intro st <;> rfl
    · dsimp only
      refine updateProj_preserves ProjectStats.lastActivity q ?_
      intro st; rfl
  · dsimp only
    refine updateProj_preserves ProjectStats.lastActivity q ?_
    intro st; rfl

theorem summaryUpdate_first (proj : String) (a : Analysis) (s : String)
    (q : String) :
    (getStats (summaryUpdate proj a s).projects q).firstActivity =
      (getStats a.projects q).firstActivity := by
  simp only [summaryUpdate]
  refine updateProj_preserves ProjectStats.firstActivity q fun st => ?_
  split <;> rfl

theorem summaryUpdate_last (proj : String) (a : Analysis) (s : String)
    (q : String) :
    (getStats (summaryUpdate proj a s).projects q).lastActivity =
      (getStats a.projects q).lastActivity := by
  simp only [summaryUpdate]
  refine updateProj_preserves ProjectStats.lastActivity q fun st => ?_
  split <;> rfl

theorem processToolItem_first (msgs : Messages) (proj : String) (a : Analysis)
    (it : ContentItem) (q : String) :
    (getStats (processToolItem msgs proj a it).projects q).firstActivity =
      (getStats a.projects q).firstActivity := by
  cases it <;> simp only [processToolItem]
  exact updateProj_preserves ProjectStats.firstActivity q
    fun st => toolStats_first ..

theorem processToolItem_last (msgs : Messages) (proj : String) (a : Analysis)
    (it : ContentItem) (q : String) :
    (getStats (processToolItem msgs proj a it).projects q).lastActivity =
      (getStats a.projects q).lastActivity := by
  cases it <;> simp only [processToolItem]
  exact updateProj_preserves ProjectStats.lastActivity q
    fun st => toolStats_last ..

theorem toolFold_first (msgs : Messages) (proj : String) (q : String) :
    ∀ (items : List ContentItem) (a : Analysis),
    (getStats ((items.foldl (processToolItem msgs proj) a)).projects q).firstActivity =
      (getStats a.projects q).firstActivity
  | [], _ => rfl
  | it :: items, a =>
    (toolFold_first msgs proj q items _).trans (processToolItem_first msgs proj a it q)

theorem toolFold_last (msgs : Messages) (proj : String) (q : String) :
    ∀ (items : List ContentItem) (a : Analysis),
    (getStats ((items.foldl (processToolItem msgs proj) a)).projects q).lastActivity =
      (getStats a.projects q).lastActivity
  | [], _ => rfl
  | it :: items, a =>
    (toolFold_last msgs proj q items _).trans (processToolItem_last msgs proj a it q)

/-! ## First/last activity as fold-min/fold-max over project timestamps -/

theorem tsUpdate_first (tz : Int) (proj : String) (a : Analysis)
    (ts : Option Int) (q : String) :
    (getStats (tsUpdate tz proj a ts).projects q).firstActivity =
      (match ts with
       | none => (getStats a.projects q).firstActivity
       | some t =>
         if q = proj then optMin ((getStats a.projects q).firstActivity) t
         else (getStats a.projects q).firstActivity) := by
  cases ts with
  | none => rfl
  | some t =>
    simp only [tsUpdate, getStats_updateProj]
    split
    · rename_i h; subst h; rfl
    · rfl

theorem tsUpdate_last (tz : Int) (proj : String) (a : Analysis)
    (ts : Option Int) (q : String) :
    (getStats (tsUpdate tz proj a ts).projects q).lastActivity =
      (match ts with
       | none => (getStats a.projects q).lastActivity
       | some t =>
         if q = proj then optMax ((getStats a.projects q).lastActivity) t
         else (getStats a.projects q).lastActivity) := by
  cases ts with
  | none => rfl
  | some t =>
    simp only [tsUpdate, getStats_updateProj]
    split
    · rename_i h; subst h; rfl
    · rfl

theorem processEntry_first (msgs : Messages) (tz : Int) (proj : String)
    (a : Analysis) (e : Entry) (q : String) :
    (getStats (processEntry msgs tz proj a e).projects q).firstActivity =
      (match e.ts with
       | none => (getStats a.projects q).firstActivity
       | some t =>
         if q = proj then optMin ((getStats a.projects q).firstActivity) t
         else (getStats a.projects q).firstActivity) := by
  have hd : (getStats (processEntry msgs tz proj a e).projects q).firstActivity =
      (getStats (tsUpdate tz proj a e.ts).projects q).firstActivity := by
    simp only [processEntry]
    split
    · split
      · split
        · exact userUpdate_first ..
        · rfl
      · split
        · split
          · exact toolFold_first ..
          · rfl
        · split
          · split
            · exact summaryUpdate_first ..
            · rfl
          · rfl
    · rfl
  rw [hd, tsUpdate_first]

theorem processEntry_last (msgs : Messages) (tz : Int) (proj : String)
    (a : Analysis) (e : Entry) (q : String) :
    (getStats (processEntry msgs tz proj a e).projects q).lastActivity =
      (match e.ts with
       | none => (getStats a.projects q).lastActivity
       | some t =>
         if q = proj then optMax ((getStats a.projects q).lastActivity) t
         else (getStats a.projects q).lastActivity) := by
  have hd : (getStats (processEntry msgs tz proj a e).projects q).lastActivity =
      (getStats (tsUpdate tz proj a e.ts).projects q).lastActivity := by
    simp only [processEntry]
    split
    · split
      · split
        · exact userUpdate_last ..
        · rfl
      · split
        · split
          · exact toolFold_last ..
          · rfl
        · split
          · split
            · exact summaryUpdate_last ..
            · rfl
          · rfl
    · rfl
  rw [hd, tsUpdate_last]

theorem entriesFold_first (msgs : Messages) (tz : Int) (proj : String)
    (q : String) :
    ∀ (l : List Entry) (a : Analysis),
    (getStats ((l.foldl (processEntry msgs tz proj) a)).projects q).firstActivity =
      (if q = proj then
        (l.filterMap Entry.ts).foldl optMin ((getStats a.projects q).firstActivity)
       else (getStats a.projects q).firstActivity)
  | [], a => by by_cases h : q = proj <;> simp [h]
  | e :: l, a => by
    rw [List.foldl_cons, entriesFold_first msgs tz proj q l _, processEntry_first]
    cases hts : e.ts <;> by_cases h : q = proj <;>
      simp [List.filterMap_cons, hts, h]

theorem entriesFold_last (msgs : Messages) (tz : Int) (proj : String)
    (q : String) :
    ∀ (l : List Entry) (a : Analysis),
    (getStats ((l.foldl (processEntry msgs tz proj) a)).projects q).lastActivity =
      (if q = proj then
        (l.filterMap Entry.ts).foldl optMax ((getStats a.projects q).lastActivity)
       else (getStats a.projects q).lastActivity)
  | [], a => by by_cases h : q = proj <;> simp [h]
  | e :: l, a => by
    rw [List.foldl_cons, entriesFold_last msgs tz proj q l _, processEntry_last]
    cases hts : e.ts <;> by_cases h : q = proj <;>
      simp [List.filterMap_cons, hts, h]

theorem processSession_first (msgs : Messages) (tz : Int) (a : Analysis)
    (s : Session) (q : String) :
    (getStats (processSession msgs tz a s).projects q).firstActivity =
      (if q = s.project then
        (sessionTimestamps s).foldl optMin ((getStats a.projects q).firstActivity)
       else (getStats a.projects q).firstActivity) := by
  simp only [processSession]
  rw [entriesFold_first]
  have hp : ∀ r, (getStats (updateProj a.projects s.project fun st =>
      { st with sessions := st.sessions ++ [s.sessionId] }) r).firstActivity =
      (getStats a.projects r).firstActivity := fun r =>
    updateProj_preserves ProjectStats.firstActivity r fun st => rfl
  rw [hp, sessionTimestamps]

theorem processSession_last (msgs : Messages) (tz : Int) (a : Analysis)
    (s : Session) (q : String) :
    (getStats (processSession msgs tz a s).projects q).lastActivity =
      (if q = s.project then
        (sessionTimestamps s).foldl optMax ((getStats a.projects q).lastActivity)
       else (getStats a.projects q).lastActivity) := by
  simp only [processSession]
  rw [entriesFold_last]
  have hp : ∀ r, (getStats (updateProj a.projects s.project fun st =>
      { st with sessions := st.sessions ++ [s.sessionId] }) r).lastActivity =
      (getStats a.projects r).lastActivity := fun r =>
    updateProj_preserves ProjectStats.lastActivity r fun st => rfl
  rw [hp, sessionTimestamps]

theorem sessionsFold_first (msgs : Messages) (tz : Int) (q : String) :
    ∀ (S : List Session) (a : Analysis),
    (getStats ((S.foldl (processSession msgs tz) a)).projects q).firstActivity =
      (projectTimestamps q S).foldl optMin ((getStats a.projects q).firstActivity)
  | [], a => by simp [projectTimestamps]
  | s :: S, a => by
    rw [List.foldl_cons, sessionsFold_first msgs tz q S _, processSession_first]
    by_cases h : q = s.project
    · simp [projectTimestamps, h, List.foldl_append]
    · simp [projectTimestamps, h, Ne.symm h, List.foldl_append]

theorem sessionsFold_last (msgs : Messages) (tz : Int) (q : String) :
    ∀ (S : List Session) (a : Analysis),
    (getStats ((S.foldl (processSession msgs tz) a)).projects q).lastActivity =
      (projectTimestamps q S).foldl optMax ((getStats a.projects q).lastActivity)
  | [], a => by simp [projectTimestamps]
  | s :: S, a => by
    rw [List.foldl_cons, sessionsFold_last msgs tz q S _, processSession_last]
    by_cases h : q = s.project
    · simp [projectTimestamps, h, List.foldl_append]
    · simp [projectTimestamps, h, Ne.symm h, List.foldl_append]

/-- The first-activity bound of the aggregation is the running minimum of the
project's timestamps. -/
theorem analyze_first (msgs : Messages) (tz : Int) (S : List Session)
    (q : String) :
    (getStats (analyzeSessions msgs tz S).projects q).firstActivity =
      (projectTimestamps q S).foldl optMin none := by
  unfold analyzeSessions
  rw [sessionsFold_first]
  rfl

/-- The last-activity bound of the aggregation is the running maximum of the
project's timestamps. -/
theorem analyze_last (msgs : Messages) (tz : Int) (S : List Session)
    (q : String) :
    (getStats (analyzeSessions msgs tz S).projects q).lastActivity =
      (projectTimestamps q S).foldl optMax none := by
  unfold analyzeSessions
  rw [sessionsFold_last]
  rfl

/-! ## Running minimum/maximum folds -/

theorem optMin_fold_spec : ∀ (l : List Int) (o : Option Int),
    match l.foldl optMin o with
    | none => l = [] ∧ o = none
    | some a => (a ∈ l ∨ o = some a) ∧ (∀ x ∈ l, a ≤ x) ∧ (∀ y, o = some y → a ≤ y) := by
  intro l
  induction l with
  | nil =>
    intro o
    cases o with
    | none => exact ⟨rfl, rfl⟩
    | some y =>
      refine ⟨Or.inr rfl, by simp, ?_⟩
      intro y' hy'
      cases hy'
      exact le_refl y
  | cons t l ih =>
    intro o
    have hm : ∃ m, optMin o t = some m ∧ m ≤ t ∧ (m = t ∨ o = some m) ∧
        (∀ f, o = some f → m ≤ f) := by
      cases o with
      | none =>
        refine ⟨t, rfl, le_refl t, Or.inl rfl, ?_⟩
        intro f h; cases h
      | some f =>
        by_cases h : t < f
        · refine ⟨t, by simp [optMin, h], le_refl t, Or.inl rfl, ?_⟩
          intro f' hf'; cases hf'; omega
        · refine ⟨f, by simp [optMin, h], by omega, Or.inr rfl, ?_⟩
          intro f' hf'; cases hf'; omega
    obtain ⟨m, hmeq, hmt, hmor, hmo⟩ := hm
    rw [List.foldl_cons, hmeq]
    have hind := ih (some m)
    cases hres : l.foldl optMin (some m) with
    | none => rw [hres] at hind; exact absurd hind.2 (by simp)
    | some a =>
      rw [hres] at hind
      obtain ⟨h1, h2, h3⟩ := hind
      have ham : a ≤ m := h3 m rfl
      refine ⟨?_, ?_, ?_⟩
      · rcases h1 with h1 | h1
        · exact Or.inl (List.mem_cons_of_mem _ h1)
        · injection h1 with h1
          rcases hmor with h | h
          · exact Or.inl (by rw [← h1, h]; exact List.mem_cons_self _ _)
          · exact Or.inr (by rw [← h1]; exact h)
      · intro x hx
        rcases List.mem_cons.mp hx with rfl | hx
        · omega
        · exact h2 x hx
      · intro y hy
        have := hmo y hy
        omega

theorem optMax_fold_spec : ∀ (l : List Int) (o : Option Int),
    match l.foldl optMax o with
    | none => l = [] ∧ o = none
    | some b => (b ∈ l ∨ o = some b) ∧ (∀ x ∈ l, x ≤ b) ∧ (∀ y, o = some y → y ≤ b) := by
  intro l
  induction l with
  | nil =>
    intro o
    cases o with
    | none => exact ⟨rfl, rfl⟩
    | some y =>
      refine ⟨Or.inr rfl, by simp, ?_⟩
      intro y' hy'
      cases hy'
      exact le_refl y
  | cons t l ih =>
    intro o
    have hm : ∃ m, optMax o t = some m ∧ t ≤ m ∧ (m = t ∨ o = some m) ∧
        (∀ f, o = some f → f ≤ m) := by
      cases o with
      | none =>
        refine ⟨t, rfl, le_refl t, Or.inl rfl, ?_⟩
        intro f h; cases h
      | some f =>
        by_cases h : f < t
        · refine ⟨t, by simp [optMax, h], le_refl t, Or.inl rfl, ?_⟩
          intro f' hf'; cases hf'; omega
        · refine ⟨f, by simp [optMax, h], by omega, Or.inr rfl, ?_⟩
          intro f' hf'; cases hf'; omega
    obtain ⟨m, hmeq, hmt, hmor, hmo⟩ := hm
    rw [List.foldl_cons, hmeq]
    have hind := ih (some m)
    cases hres : l.foldl optMax (some m) with
    | none => rw [hres] at hind; exact absurd hind.2 (by simp)
    | some b =>
      rw [hres] at hind
      obtain ⟨h1, h2, h3⟩ := hind
      have hbm : m ≤ b := h3 m rfl
      refine ⟨?_, ?_, ?_⟩
      · rcases h1 with h1 | h1
        · exact Or.inl (List.mem_cons_of_mem _ h1)
        · injection h1 with h1
          rcases hmor with h | h
          · exact Or.inl (by rw [← h1, h]; exact List.mem_cons_self _ _)
          · exact Or.inr (by rw [← h1]; exact h)
      · intro x hx
        rcases List.mem_cons.mp hx with rfl | hx
        · omega
        · exact h2 x hx
      · intro y hy
        have := hmo y hy
        omega

/-! ## Range facts about the Session Loader -/

theorem loadLine_ts_range (lo hi : Int) (rl : RawLine) (e : Entry) (t : Int)
    (he : loadLine lo hi rl = some e) (hts : e.ts = some t) :
    lo ≤ t ∧ t ≤ hi := by
  cases rl with
  | malformed => exact absurd he (by simp [loadLine])
  | entry r =>
    simp only [loadLine] at he
    split at he
    · split at he
      · injection he with he
        rw [← he] at hts
        simp only [entryOfRaw, Option.some.injEq] at hts
        omega
      · exact absurd he (by simp)
    · exact absurd he (by simp)
    · injection he with he
      rw [← he] at hts
      simp [entryOfRaw] at hts

theorem loadSessions_ts_range (lo hi : Int) (filt : Option String)
    (raw : List RawSession) (s : Session) (hs : s ∈ loadSessions lo hi filt raw)
    (e : Entry) (hedata : e ∈ s.data) (t : Int) (hts : e.ts = some t) :
    lo ≤ t ∧ t ≤ hi := by
  rw [loadSessions, List.mem_filterMap] at hs
  obtain ⟨rs, _, hrs⟩ := hs
  split at hrs
  · split at hrs
    · exact absurd hrs (by simp)
    · injection hrs with hrs
      rw [← hrs] at hedata
      rw [loadJsonlFile, List.mem_filterMap] at hedata
      obtain ⟨l, _, hl⟩ := hedata
      exact loadLine_ts_range lo hi l e t hl hts
  · exact absurd hrs (by simp)

theorem mem_projectTimestamps (p : String) :
    ∀ (S : List Session), ∀ t ∈ projectTimestamps p S,
      ∃ s, s ∈ S ∧ ∃ e, e ∈ s.data ∧ e.ts = some t
  | [], t, ht => absurd ht (by simp [projectTimestamps])
  | s :: S, t, ht => by
    rw [projectTimestamps] at ht
    rcases List.mem_append.mp ht with h | h
    · split at h
      · rw [sessionTimestamps] at h
        obtain ⟨e, he, hets⟩ := List.mem_filterMap.mp h
        exact ⟨s, List.mem_cons_self _ _, e, he, hets⟩
      · exact absurd h (by simp)
    · obtain ⟨s', hs', rest⟩ := mem_projectTimestamps p S t h
      exact ⟨s', List.mem_cons_of_mem _ hs', rest⟩

/-! ## The topic-list cap -/

theorem tsUpdate_topics (tz : Int) (proj : String) (a : Analysis)
    (ts : Option Int) (q : String) :
    (getStats (tsUpdate tz proj a ts).projects q).topics =
      (getStats a.projects q).topics := by
  cases ts with
  | none => rfl
  | some t =>
    simp only [tsUpdate]
    exact updateProj_preserves ProjectStats.topics q fun st => rfl

theorem userUpdate_topics_le (msgs : Messages) (proj : String) (m : Message)
    (a : Analysis) (h : ∀ r, (getStats a.projects r).topics.length ≤ 5)
    (q : String) :
    (getStats (userUpdate msgs proj a m).projects q).topics.length ≤ 5 := by
  have hpres : ∀ r, (getStats (updateProj a.projects proj fun st =>
      { st with messageCount := st.messageCount + 1 }) r).topics =
      (getStats a.projects r).topics := fun r =>
    updateProj_preserves ProjectStats.topics r fun st => rfl
  simp only [userUpdate]
  split
  case isTrue hc =>
    split
    case h_1 topic heq =>
      rw [getStats_updateProj]
      split
      case isTrue hq =>
        subst hq
        dsimp only
        simp only [List.length_append, List.length_cons, List.length_nil]
        have := hc.2
        rw [hpres q] at this
        omega
      case isFalse hq =>
        rw [hpres q]; exact h q
    case h_2 heq =>
      rw [hpres q]; exact h q
  case isFalse hc =>
    rw [hpres q]; exact h q

theorem userUpdate_topics_frozen (msgs : Messages) (proj : String) (m : Message)
    (a : Analysis) (q : String)
    (h5 : (getStats a.projects q).topics.length = 5) :
    (getStats (userUpdate msgs proj a m).projects q).topics =
      (getStats a.projects q).topics := by
  have hpres : ∀ r, (getStats (updateProj a.projects proj fun st =>
      { st with messageCount := st.messageCount + 1 }) r).topics =
      (getStats a.projects r).topics := fun r =>
    updateProj_preserves ProjectStats.topics r fun st => rfl
  by_cases hq : q = proj
  · subst hq
    simp only [userUpdate]
    rw [if_neg]
    · exact hpres q
    · intro hc
      have := hc.2
      rw [hpres q] at this
      omega
  · simp only [userUpdate]
    split
    · split
      · rw [getStats_updateProj, if_neg hq, hpres q]
      · rw [hpres q]
    · rw [hpres q]

theorem summaryUpdate_topics_le (proj : String) (s : String) (a : Analysis)
    (h : ∀ r, (getStats a.projects r).topics.length ≤ 5) (q : String) :
    (getStats (summaryUpdate proj a s).projects q).topics.length ≤ 5 := by
  simp only [summaryUpdate]
  rw [getStats_updateProj]
  split
  case isTrue hq =>
    subst hq
    split
    case isTrue h0 => simp [h0]
    case isFalse h0 => exact h q
  case isFalse hq => exact h q

theorem summaryUpdate_topics_frozen (proj : String) (s : String) (a : Analysis)
    (q : String) (h5 : (getStats a.projects q).topics.length = 5) :
    (getStats (summaryUpdate proj a s).projects q).topics =
      (getStats a.projects q).topics := by
  simp only [summaryUpdate]
  rw [getStats_updateProj]
  split
  case isTrue hq =>
    subst hq
    rw [if_neg (by omega)]
  case isFalse hq => rfl

theorem processToolItem_topics_le (msgs : Messages) (proj : String)
    (it : ContentItem) (a : Analysis)
    (h : ∀ r, (getStats a.projects r).topics.length ≤ 5) (q : String) :
    (getStats (processToolItem msgs proj a it).projects q).topics.length ≤ 5 := by
  cases it with
  | toolUse name input =>
    simp only [processToolItem]
    rw [getStats_updateProj]
    split
    case isTrue hq => subst hq; exact toolStats_topics_le _ _ _ _ (h q)
    case isFalse hq => exact h q
  | textBlock t => exact h q
  | strItem s => exact h q
  | otherItem => exact h q

theorem processToolItem_topics_frozen (msgs : Messages) (proj : String)
    (it : ContentItem) (a : Analysis) (q : String)
    (h5 : (getStats a.projects q).topics.length = 5) :
    (getStats (processToolItem msgs proj a it).projects q).topics =
      (getStats a.projects q).topics := by
  cases it with
  | toolUse name input =>
    simp only [processToolItem]
    rw [getStats_updateProj]
    split
    case isTrue hq => subst hq; exact toolStats_topics_frozen _ _ _ _ h5
    case isFalse hq => rfl
  | textBlock t => rfl
  | strItem s => rfl
  | otherItem => rfl

theorem toolFold_topics_le (msgs : Messages) (proj : String) :
    ∀ (items : List ContentItem) (a : Analysis),
    (∀ r, (getStats a.projects r).topics.length ≤ 5) →
    ∀ q, (getStats ((items.foldl (processToolItem msgs proj) a)).projects q).topics.length ≤ 5
  | [], _, h, q => h q
  | it :: items, a, h, q =>
    toolFold_topics_le msgs proj items (processToolItem msgs proj a it)
      (fun r => processToolItem_topics_le msgs proj it a h r) q

theorem toolFold_topics_frozen (msgs : Messages) (proj : String) (q : String) :
    ∀ (items : List ContentItem) (a : Analysis),
    (getStats a.projects q).topics.length = 5 →
    (getStats ((items.foldl (processToolItem msgs proj) a)).projects q).topics =
      (getStats a.projects q).topics
  | [], _, _ => rfl
  | it :: items, a, h5 => by
    rw [List.foldl_cons]
    have h1 := processToolItem_topics_frozen msgs proj it a q h5
    have h2 : (getStats (processToolItem msgs proj a it).projects q).topics.length = 5 := by
      rw [h1, h5]
    rw [toolFold_topics_frozen msgs proj q items _ h2, h1]

theorem processEntry_topics_le (msgs : Messages) (tz : Int) (proj : String)
    (e : Entry) (a : Analysis)
    (h : ∀ r, (getStats a.projects r).topics.length ≤ 5) (q : String) :
    (getStats (processEntry msgs tz proj a e).projects q).topics.length ≤ 5 := by
  have hts : ∀ r, (getStats (tsUpdate tz proj a e.ts).projects r).topics.length ≤ 5 :=
    fun r => by rw [tsUpdate_topics]; exact h r
  simp only [processEntry]
  split
  · split
    · split
      · exact userUpdate_topics_le msgs proj _ _ hts q
      · exact hts q
    · split
      · split
        · exact toolFold_topics_le msgs proj _ _ hts q
        · exact hts q
      · split
        · split
          · exact summaryUpdate_topics_le proj _ _ hts q
          · exact hts q
        · exact hts q
  · exact hts q

theorem processEntry_topics_frozen (msgs : Messages) (tz : Int) (proj : String)
    (e : Entry) (a : Analysis) (q : String)
    (h5 : (getStats a.projects q).topics.length = 5) :
    (getStats (processEntry msgs tz proj a e).projects q).topics =
      (getStats a.projects q).topics := by
  have htq : (getStats (tsUpdate tz proj a e.ts).projects q).topics =
      (getStats a.projects q).topics := tsUpdate_topics tz proj a e.ts q
  have h5' : (getStats (tsUpdate tz proj a e.ts).projects q).topics.length = 5 := by
    rw [htq]; exact h5
  simp only [processEntry]
  split
  · split
    · split
      · exact (userUpdate_topics_frozen msgs proj _ _ q h5').trans htq
      · exact htq
    · split
      · split
        · exact (toolFold_topics_frozen msgs proj q _ _ h5').trans htq
        · exact htq
      · split
        · split
          · exact (summaryUpdate_topics_frozen proj _ _ q h5').trans htq
          · exact htq
        · exact htq
  · exact htq

theorem analyze_topics_le (msgs : Messages) (tz : Int) (S : List Session)
    (q : String) :
    (getStats (analyzeSessions msgs tz S).projects q).topics.length ≤ 5 := by
  unfold analyzeSessions
  have hstep : ∀ (a : Analysis) (s : Session),
      (∀ r, (getStats a.projects r).topics.length ≤ 5) →
      (∀ r, (getStats (processSession msgs tz a s).projects r).topics.length ≤ 5) := by
    intro a s h
    have hsess : ∀ r, (getStats (updateProj a.projects s.project fun st =>
        { st with sessions := st.sessions ++ [s.sessionId] }) r).topics.length ≤ 5 := by
      intro r
      have hpres : (getStats (updateProj a.projects s.project fun st =>
          { st with sessions := st.sessions ++ [s.sessionId] }) r).topics =
          (getStats a.projects r).topics :=
        updateProj_preserves ProjectStats.topics r fun st => rfl
      rw [hpres]
      exact h r
    have hestep : ∀ (a' : Analysis) (e : Entry),
        (∀ r, (getStats a'.projects r).topics.length ≤ 5) →
        (∀ r, (getStats (processEntry msgs tz s.project a' e).projects r).topics.length ≤ 5) :=
      fun a' e h' r => processEntry_topics_le msgs tz s.project e a' h' r
    simp only [processSession]
    exact @foldlInv Entry Analysis
      (fun a' => ∀ r, (getStats a'.projects r).topics.length ≤ 5)
      (processEntry msgs tz s.project) hestep s.data _ hsess
  have base : ∀ r, (getStats ((⟨S.length, [], [], [], []⟩ : Analysis)).projects r).topics.length ≤ 5 := by
    intro r
    simp [getStats, emptyStats]
  exact @foldlInv Session Analysis
    (fun a => ∀ r, (getStats a.projects r).topics.length ≤ 5)
    (processSession msgs tz) hstep S ⟨S.length, [], [], [], []⟩ base q

/-! ## Tool-usage counting -/

theorem lookupCount_bump {α : Type} [DecidableEq α] (m : List (α × Nat))
    (k k' : α) :
    lookupCount (bump m k) k' =
      if k' = k then lookupCount m k' + 1 else lookupCount m k' := by
  induction m with
  | nil =>
    by_cases h : k' = k
    · subst h; simp [bump, lookupCount]
    · simp [bump, lookupCount, h, Ne.symm h]
  | cons hd tl ih =>
    obtain ⟨q, n⟩ := hd
    simp only [bump]
    by_cases hqk : q = k
    · subst hqk
      by_cases hk' : q = k'
      · subst hk'; simp [lookupCount]
      · simp [lookupCount, hk', Ne.symm hk']
    · simp only [if_neg hqk, lookupCount]
      by_cases hqk' : q = k'
      · subst hqk'; simp [lookupCount, hqk]
      · simp [lookupCount, hqk', ih]

theorem sumProjCounts_updateProj (ps : List (String × ProjectStats))
    (p : String) (f : ProjectStats → ProjectStats) (n : String) (d : Nat)
    (hf : ∀ st, lookupCount (f st).toolUsage n = lookupCount st.toolUsage n + d) :
    sumProjCounts (updateProj ps p f) n = sumProjCounts ps n + d := by
  induction ps with
  | nil =>
    have h0 := hf emptyStats
    have h1 : lookupCount emptyStats.toolUsage n = 0 := rfl
    simp [updateProj, sumProjCounts]
    omega
  | cons hd tl ih =>
    obtain ⟨q, st⟩ := hd
    by_cases h : q = p
    · subst h
      simp [updateProj, sumProjCounts, hf st]
      omega
    · simp only [updateProj, if_neg h, sumProjCounts, List.map_cons, List.sum_cons]
      have h2 := ih
      simp only [sumProjCounts] at h2
      omega

theorem processToolItem_counts (msgs : Messages) (proj : String) (a : Analysis)
    (it : ContentItem)
    (h : ∀ n, lookupCount a.toolUsageOverall n = sumProjCounts a.projects n) :
    ∀ n, lookupCount (processToolItem msgs proj a it).toolUsageOverall n =
      sumProjCounts (processToolItem msgs proj a it).projects n := by
  cases it with
  | toolUse name input =>
    intro n
    simp only [processToolItem]
    have hf : ∀ st, lookupCount (toolStatsUpdate msgs name input st).toolUsage n =
        lookupCount st.toolUsage n + (if n = name then 1 else 0) := by
      intro st
      rw [toolStats_toolUsage, lookupCount_bump]
      split <;> simp
    rw [lookupCount_bump,
      sumProjCounts_updateProj a.projects proj (toolStatsUpdate msgs name input) n
        (if n = name then 1 else 0) hf, h n]
    split <;> simp
  | textBlock t => exact h
  | strItem s => exact h
  | otherItem => exact h

theorem toolFold_counts (msgs : Messages) (proj : String) :
    ∀ (items : List ContentItem) (a : Analysis),
    (∀ n, lookupCount a.toolUsageOverall n = sumProjCounts a.projects n) →
    ∀ n, lookupCount ((items.foldl (processToolItem msgs proj) a)).toolUsageOverall n =
      sumProjCounts ((items.foldl (processToolItem msgs proj) a)).projects n
  | [], _, h => h
  | it :: items, a, h =>
    toolFold_counts msgs proj items (processToolItem msgs proj a it)
      (processToolItem_counts msgs proj a it h)

theorem userUpdate_counts (msgs : Messages) (proj : String) (m : Message)
    (a : Analysis)
    (h : ∀ n, lookupCount a.toolUsageOverall n = sumProjCounts a.projects n) :
    ∀ n, lookupCount (userUpdate msgs proj a m).toolUsageOverall n =
      sumProjCounts (userUpdate msgs proj a m).projects n := by
  intro n
  simp only [userUpdate]
  split
  · split
    · dsimp only
      rw [sumProjCounts_updateProj _ proj _ n 0 fun st => by simp,
        sumProjCounts_updateProj _ proj _ n 0 fun st => by simp, h n]
      omega
    · dsimp only
      rw [sumProjCounts_updateProj _ proj _ n 0 fun st => by simp, h n]
      omega
  · dsimp only
    rw [sumProjCounts_updateProj _ proj _ n 0 fun st => by simp, h n]
    omega

theorem summaryUpdate_counts (proj : String) (s : String) (a : Analysis)
    (h : ∀ n, lookupCount a.toolUsageOverall n = sumProjCounts a.projects n) :
    ∀ n, lookupCount (summaryUpdate proj a s).toolUsageOverall n =
      sumProjCounts (summaryUpdate proj a s).projects n := by
  intro n
  simp only [summaryUpdate]
  rw [sumProjCounts_updateProj _ proj _ n 0 fun st => by split <;> simp, h n]
  omega

theorem tsUpdate_counts (tz : Int) (proj : String) (a : Analysis)
    (ts : Option Int)
    (h : ∀ n, lookupCount a.toolUsageOverall n = sumProjCounts a.projects n) :
    ∀ n, lookupCount (tsUpdate tz proj a ts).toolUsageOverall n =
      sumProjCounts (tsUpdate tz proj a ts).projects n := by
  cases ts with
  | none => exact h
  | some t =>
    intro n
    simp only [tsUpdate]
    rw [sumProjCounts_updateProj _ proj _ n 0 fun st => by simp, h n]
    omega

theorem processEntry_counts (msgs : Messages) (tz : Int) (proj : String)
    (e : Entry) (a : Analysis)
    (h : ∀ n, lookupCount a.toolUsageOverall n = sumProjCounts a.projects n) :
    ∀ n, lookupCount (processEntry msgs tz proj a e).toolUsageOverall n =
      sumProjCounts (processEntry msgs tz proj a e).projects n := by
  have h1 := tsUpdate_counts tz proj a e.ts h
  simp only [processEntry]
  split
  · split
    · split
      · exact userUpdate_counts msgs proj _ _ h1
      · exact h1
    · split
      · split
        · exact toolFold_counts msgs proj _ _ h1
        · exact h1
      · split
        · split
          · exact summaryUpdate_counts proj _ _ h1
          · exact h1
        · exact h1
  · exact h1

theorem processSession_counts (msgs : Messages) (tz : Int) (a : Analysis)
    (s : Session)
    (h : ∀ n, lookupCount a.toolUsageOverall n = sumProjCounts a.projects n) :
    ∀ n, lookupCount (processSession msgs tz a s).toolUsageOverall n =
      sumProjCounts (processSession msgs tz a s).projects n := by
  have h1 : ∀ n, lookupCount ({ a with projects := updateProj a.projects s.project fun st =>
      { st with sessions := st.sessions ++ [s.sessionId] } } : Analysis).toolUsageOverall n =
      sumProjCounts ({ a with projects := updateProj a.projects s.project fun st =>
      { st with sessions := st.sessions ++ [s.sessionId] } } : Analysis).projects n := by
    intro n
    dsimp only
    rw [sumProjCounts_updateProj _ s.project _ n 0 fun st => by simp, h n]
    omega
  simp only [processSession]
  exact @foldlInv Entry Analysis
    (fun a' => ∀ n, lookupCount a'.toolUsageOverall n = sumProjCounts a'.projects n)
    (processEntry msgs tz s.project)
    (fun a' e h' => processEntry_counts msgs tz s.project e a' h') s.data _ h1

/-! # Claim theorems -/

/-- C1, counterexample: on the C1 scenario the aggregator's topic list for the
project is ["Fix login bug", "File read: app.log"], not exactly
["Fix login bug"]: the user branch appends whenever fewer than 3 topics are
recorded, so the summary seed does not suppress the user-derived topic. -/
theorem c1_counterexample :
    (getStats (analyzeSessions enMessages 0 c1Sessions).projects "myproj").topics =
      ["Fix login bug", "File read: app.log"] ∧
    (["Fix login bug", "File read: app.log"] : List String) ≠ ["Fix login bug"] :=
  ⟨by decide, by decide⟩

/-- C1, amended: on the C1 scenario the topic list is exactly
["Fix login bug", "File read: app.log"]: the summary string is appended first
because the topic list was empty, and the topic derived from the user message
is appended afterwards because the topic list then held fewer than 3 topics. -/
theorem c1_amended_topics :
    (getStats (analyzeSessions enMessages 0 c1Sessions).projects "myproj").topics =
      ["Fix login bug", "File read: app.log"] := by
  decide

/-- C2, counterexample: a valid JSON line whose timestamp field does not parse
is dropped by the Entry Parser, so the session's entry sequence is empty
rather than containing the entry. -/
theorem c2_counterexample :
    loadJsonlFile 0 100 [RawLine.entry c2Raw] = [] := by
  decide

/-- C2, amended: a decoded line whose timestamp field is present but
unparseable is discarded entirely by the parser (the parse error is caught by
the blanket except clause), so it is neither range-filtered nor included, and
a fortiori contributes nothing to the histograms. -/
theorem c2_unparseable_dropped (lo hi : Int) (e : RawEntry)
    (h : e.tsField = TsField.unparseable) :
    loadLine lo hi (RawLine.entry e) = none := by
  simp [loadLine, h]

/-- Witness for the C2 amended theorem at a concrete record. -/
theorem c2_witness :
    c2Raw.tsField = TsField.unparseable ∧
    loadLine 0 100 (RawLine.entry c2Raw) = none :=
  ⟨rfl, c2_unparseable_dropped 0 100 c2Raw rfl⟩

/-- C3, counterexample: a session holding a single assistant tool-use entry
puts a tool-derived topic in the first slot of the topic list even though no
user-message topics exist (message count 0) and no summary entry occurs, so
tool topics are not held back until three user slots are filled. -/
theorem c3_counterexample :
    (getStats (analyzeSessions enMessages 0 [c3Session]).projects "p3").topics =
      ["[Read] b.txt"] ∧
    (getStats (analyzeSessions enMessages 0 [c3Session]).projects "p3").messageCount = 0 :=
  ⟨by decide, by decide⟩

/-- C3, amended: for every project the topic list has length at most 5, and
once a project's topic list holds 5 topics, processing any further entry
appends nothing (user topics are gated by fewer-than-3, tool topics by
fewer-than-5, summary topics by emptiness; tool-use topics are admitted
whenever fewer than 5 topics exist, regardless of how many user topics came
first). -/
theorem c3_topics_cap :
    (∀ (msgs : Messages) (tz : Int) (S : List Session) (q : String),
      (getStats (analyzeSessions msgs tz S).projects q).topics.length ≤ 5) ∧
    (∀ (msgs : Messages) (tz : Int) (proj : String) (a : Analysis) (e : Entry)
      (q : String),
      (getStats a.projects q).topics.length = 5 →
      (getStats (processEntry msgs tz proj a e).projects q).topics =
        (getStats a.projects q).topics) :=
  ⟨analyze_topics_le,
   fun msgs tz proj a e q h5 => processEntry_topics_frozen msgs tz proj e a q h5⟩

/-- Witness for the C3 amended theorem: a concrete full topic list is frozen
by a further user entry. -/
theorem c3_witness :
    (getStats c3FullAnalysis.projects "p").topics.length = 5 ∧
    (getStats (processEntry enMessages 0 "p" c3FullAnalysis c3ProbeEntry).projects "p").topics =
      (getStats c3FullAnalysis.projects "p").topics :=
  ⟨by decide,
   c3_topics_cap.2 enMessages 0 "p" c3FullAnalysis c3ProbeEntry "p" (by decide)⟩

/-- C9: the aggregation method is deterministic and does not mutate the
generator's loaded sessions (the source only reads `self.sessions` and fills
a fresh accumulator), so running it twice in sequence returns the state
unchanged and an identical AnalysisResult. -/
theorem c9_idempotent (tz : Int) (g : GenState) :
    (analyzeSessionsM tz g).1 = g ∧
    (analyzeSessionsM tz (analyzeSessionsM tz g).1).2 = (analyzeSessionsM tz g).2 :=
  ⟨rfl, rfl⟩

/-- C10: for every tool name, the global tool-usage count equals the sum over
all projects of that project's count, because every tool-use block increments
both histograms together exactly once. -/
theorem c10_overall_eq_sum (msgs : Messages) (tz : Int) (S : List Session)
    (name : String) :
    lookupCount (analyzeSessions msgs tz S).toolUsageOverall name =
      sumProjCounts (analyzeSessions msgs tz S).projects name := by
  unfold analyzeSessions
  have base : ∀ n, lookupCount ((⟨S.length, [], [], [], []⟩ : Analysis)).toolUsageOverall n =
      sumProjCounts ((⟨S.length, [], [], [], []⟩ : Analysis)).projects n := by
    intro n
    simp [sumProjCounts, lookupCount]
  exact @foldlInv Session Analysis
    (fun a => ∀ n, lookupCount a.toolUsageOverall n = sumProjCounts a.projects n)
    (processSession msgs tz)
    (fun a s h => processSession_counts msgs tz a s h) S ⟨S.length, [], [], [], []⟩
    base name

/-- C5: for every project of the analysis of loader output that has at least
one timestamped entry, the first and last activity bounds are non-null, the
first is at most the last, and both lie within the requested inclusive UTC
range. -/
theorem c5_first_last_in_range (msgs : Messages) (tz lo hi : Int)
    (filt : Option String) (raw : List RawSession) (p : String)
    (hne : projectTimestamps p (loadSessions lo hi filt raw) ≠ []) :
    ∃ a b,
      (getStats (analyzeSessions msgs tz (loadSessions lo hi filt raw)).projects p).firstActivity = some a ∧
      (getStats (analyzeSessions msgs tz (loadSessions lo hi filt raw)).projects p).lastActivity = some b ∧
      a ≤ b ∧ lo ≤ a ∧ a ≤ hi ∧ lo ≤ b ∧ b ≤ hi := by
  rw [analyze_first, analyze_last]
  have hmin := optMin_fold_spec (projectTimestamps p (loadSessions lo hi filt raw)) none
  have hmax := optMax_fold_spec (projectTimestamps p (loadSessions lo hi filt raw)) none
  have hrange : ∀ t ∈ projectTimestamps p (loadSessions lo hi filt raw),
      lo ≤ t ∧ t ≤ hi := by
    intro t ht
    obtain ⟨s, hs, e, he, hets⟩ := mem_projectTimestamps p _ t ht
    exact loadSessions_ts_range lo hi filt raw s hs e he t hets
  cases hfold : (projectTimestamps p (loadSessions lo hi filt raw)).foldl optMin none with
  | none => rw [hfold] at hmin; exact absurd hmin.1 hne
  | some a =>
    cases hgold : (projectTimestamps p (loadSessions lo hi filt raw)).foldl optMax none with
    | none => rw [hgold] at hmax; exact absurd hmax.1 hne
    | some b =>
      rw [hfold] at hmin
      rw [hgold] at hmax
      obtain ⟨hamem, hale, -⟩ := hmin
      obtain ⟨hbmem, hbge, -⟩ := hmax
      have ha : a ∈ projectTimestamps p (loadSessions lo hi filt raw) := by
        rcases hamem with h | h
        · exact h
        · cases h
      have hb : b ∈ projectTimestamps p (loadSessions lo hi filt raw) := by
        rcases hbmem with h | h
        · exact h
        · cases h
      have hra := hrange a ha
      have hrb := hrange b hb
      exact ⟨a, b, rfl, rfl, hbge a ha, hra.1, hra.2, hrb.1, hrb.2⟩

/-- Witness for C5 at a concrete loaded project. -/
theorem c5_witness :
    projectTimestamps "proj" (loadSessions 0 100 none c5Raw) ≠ [] ∧
    (∃ a b,
      (getStats (analyzeSessions enMessages 540 (loadSessions 0 100 none c5Raw)).projects "proj").firstActivity = some a ∧
      (getStats (analyzeSessions enMessages 540 (loadSessions 0 100 none c5Raw)).projects "proj").lastActivity = some b ∧
      a ≤ b ∧ 0 ≤ a ∧ a ≤ 100 ∧ 0 ≤ b ∧ b ≤ 100) :=
  ⟨by decide, c5_first_last_in_range enMessages 540 0 100 none c5Raw "proj" (by decide)⟩

/-- C6: the range filter of the Session Loader is inclusive at both ends: an
entry whose parsed timestamp equals the start or the end instant is kept. -/
theorem c6_boundary_inclusive (lo hi t : Int) (e : RawEntry)
    (hparsed : e.tsField = TsField.parsed t) (hlohi : lo ≤ hi)
    (hb : t = lo ∨ t = hi) :
    loadLine lo hi (RawLine.entry e) = some (entryOfRaw e (some t)) := by
  have hcond : lo ≤ t ∧ t ≤ hi := by
    rcases hb with rfl | rfl
    · exact ⟨le_refl _, hlohi⟩
    · exact ⟨hlohi, le_refl _⟩
  simp [loadLine, hparsed, hcond]

/-- Witness for C6 at both boundaries of the range [0, 10]. -/
theorem c6_witness :
    ((0 : Int) ≤ 10) ∧
    loadLine 0 10 (RawLine.entry ⟨TsField.parsed 0, some "user", none, none⟩) =
      some (entryOfRaw ⟨TsField.parsed 0, some "user", none, none⟩ (some 0)) ∧
    loadLine 0 10 (RawLine.entry ⟨TsField.parsed 10, some "user", none, none⟩) =
      some (entryOfRaw ⟨TsField.parsed 10, some "user", none, none⟩ (some 10)) :=
  ⟨by decide,
   c6_boundary_inclusive 0 10 0 _ rfl (by decide) (Or.inl rfl),
   c6_boundary_inclusive 0 10 10 _ rfl (by decide) (Or.inr rfl)⟩

/-- C4: for every non-empty input whose normalized text contains an image
filename (in the sense of the image rule's pattern) and also contains an
HTTP(S) URL, the Content Summarizer classifies the input as an image-file
topic with that filename, never reaching the web-reference rule. -/
theorem c4_image_precedence (msgs : Messages) (s : String) (f : List Char)
    (hne : s ≠ "")
    (himg : imageSearch (normalizeWs s).toList = some f)
    (hurl : urlSearch (normalizeWs s).toList ≠ none) :
    summarizeContent msgs s = some (msgs.image_file ++ ": " ++ String.mk f) := by
  have himg' : imageSearch (normalizeWs s).data = some f := himg
  unfold summarizeContent
  rw [if_neg hne]
  simp [summarizeCore, himg']

/-- Witness for C4: an input holding both an image filename and an URL. -/
theorem c4_witness :
    ("see photo.png at https://example.com/x" : String) ≠ "" ∧
    imageSearch (normalizeWs "see photo.png at https://example.com/x").toList =
      some "photo.png".toList ∧
    urlSearch (normalizeWs "see photo.png at https://example.com/x").toList ≠ none ∧
    summarizeContent enMessages "see photo.png at https://example.com/x" =
      some (enMessages.image_file ++ ": " ++ String.mk "photo.png".toList) :=
  ⟨by decide, by decide, by decide,
   c4_image_precedence enMessages _ _ (by decide) (by decide) (by decide)⟩

/-- C7: in the code-keyword rule, the creation-wording check is evaluated
before the error-wording check: an input reaching rule 7 that contains both
creation wording and error/fix wording is labelled as a code implementation
request, not as an error fix. -/
theorem c7_creation_before_error (msgs : Messages) (s : String)
    (hne : s ≠ "")
    (himg : imageSearch (normalizeWs s).toList = none)
    (hdata : ¬ (strContains (normalizeWs s) "data:image" = true ∨
      (1000 < (normalizeWs s).length ∧ isBase64Blob (normalizeWs s) = true)))
    (hshot : ¬ (strContains (lowerStr (normalizeWs s)) "screenshot" = true ∨
      strContains (lowerStr (normalizeWs s)) "screencapture" = true))
    (hfile : filePathSearch (normalizeWs s).toList = none)
    (hurl : ∀ u, urlSearch (normalizeWs s).toList = some u → domainSearch u = none)
    (hkw : (codeKeywords.any fun k => strContains (lowerStr (normalizeWs s)) k) = true)
    (hcreate : strContains (normalizeWs s) "作成" = true ∨
      strContains (normalizeWs s) "作って" = true ∨
      strContains (lowerStr (normalizeWs s)) "create" = true)
    (herr : strContains (normalizeWs s) "エラー" = true ∨
      strContains (lowerStr (normalizeWs s)) "error" = true ∨
      strContains (normalizeWs s) "修正" = true) :
    summarizeContent msgs s = some msgs.code_implementation := by
  have htail : summarizeCore.summarizeTail msgs (normalizeWs s) =
      some msgs.code_implementation := by
    unfold summarizeCore.summarizeTail
    rw [if_pos hkw, if_pos hcreate]
  unfold summarizeContent
  rw [if_neg hne]
  simp only [summarizeCore, himg]
  rw [if_neg hdata, if_neg hshot]
  simp only [hfile]
  cases hu : urlSearch (normalizeWs s).toList with
  | none => exact htail
  | some u =>
    have hd := hurl u hu
    simp only [hd]
    exact htail

/-- Witness for C7: the input "create a function, fix this error" contains
both creation and error wording and is labelled as a code implementation
request. -/
theorem c7_witness :
    ("create a function, fix this error" : String) ≠ "" ∧
    summarizeContent enMessages "create a function, fix this error" =
      some enMessages.code_implementation :=
  ⟨by decide,
   c7_creation_before_error enMessages "create a function, fix this error"
     (by decide) (by decide) (by decide) (by decide) (by decide)
     (by
       intro u hu
       have h0 : urlSearch (normalizeWs "create a function, fix this error").toList = none := by
         decide
       rw [h0] at hu
       cases hu)
     (by decide) (by decide) (by decide)⟩

/-- C8: the hour intensity level is determined by inclusive rational
thresholds of count/max against 0.8, 0.6, 0.4 and 0.2 (level 0 exactly for
count 0), and on a histogram with maximum 10 the hour with count 6 renders at
level 4. -/
theorem c8_hour_levels :
    (∀ c m : Nat, 0 < m → c ≠ 0 →
      ((hourLevel c m = 5 ↔ 8 * m ≤ 10 * c) ∧
       (hourLevel c m = 4 ↔ 6 * m ≤ 10 * c ∧ 10 * c < 8 * m) ∧
       (hourLevel c m = 3 ↔ 4 * m ≤ 10 * c ∧ 10 * c < 6 * m) ∧
       (hourLevel c m = 2 ↔ 2 * m ≤ 10 * c ∧ 10 * c < 4 * m) ∧
       (hourLevel c m = 1 ↔ 10 * c < 2 * m))) ∧
    (∀ m : Nat, hourLevel 0 m = 0) ∧
    chartLevel c8Hist 3 = 4 := by
  refine ⟨?_, ?_, ?_⟩
  · intro c m hm hc
    have key : ∀ k : Nat, ((k : ℚ) / 10 ≤ (c : ℚ) / (m : ℚ)) ↔ (k * m ≤ c * 10) := by
      intro k
      rw [div_le_div_iff (by norm_num) (by exact_mod_cast hm)]
      constructor
      · intro h
        exact_mod_cast h
      · intro h
        exact_mod_cast h
    unfold hourLevel
    rw [if_neg hc]
    split_ifs with h1 h2 h3 h4
    · have f8 : 8 * m ≤ c * 10 := (key 8).mp h1
      refine ⟨?_, ?_, ?_, ?_, ?_⟩ <;> constructor <;> intro h' <;> omega
    · have n8 : ¬ 8 * m ≤ c * 10 := fun hh => h1 ((key 8).mpr hh)
      have f6 : 6 * m ≤ c * 10 := (key 6).mp h2
      refine ⟨?_, ?_, ?_, ?_, ?_⟩ <;> constructor <;> intro h' <;> omega
    · have n6 : ¬ 6 * m ≤ c * 10 := fun hh => h2 ((key 6).mpr hh)
      have f4 : 4 * m ≤ c * 10 := (key 4).mp h3
      refine ⟨?_, ?_, ?_, ?_, ?_⟩ <;> constructor <;> intro h' <;> omega
    · have n4 : ¬ 4 * m ≤ c * 10 := fun hh => h3 ((key 4).mpr hh)
      have f2 : 2 * m ≤ c * 10 := (key 2).mp h4
      refine ⟨?_, ?_, ?_, ?_, ?_⟩ <;> constructor <;> intro h' <;> omega
    · have n2 : ¬ 2 * m ≤ c * 10 := fun hh => h4 ((key 2).mpr hh)
      refine ⟨?_, ?_, ?_, ?_, ?_⟩ <;> constructor <;> intro h' <;> omega
  · intro m
    rfl
  · rw [show chartLevel c8Hist 3 = hourLevel 6 10 from rfl]
    unfold hourLevel
    norm_num

/-- Witness for C8: the threshold characterization applied at count 6,
maximum 10. -/
theorem c8_witness :
    0 < 10 ∧ (6 : Nat) ≠ 0 ∧
    (hourLevel 6 10 = 4 ↔ 6 * 10 ≤ 10 * 6 ∧ 10 * 6 < 8 * 10) :=
  ⟨by decide, by decide, (c8_hour_levels.1 6 10 (by decide) (by decide)).2.1⟩
